import Mathlib

/-
Verification of the black-hole light-ray visualization core
(black-hole-vis), a shallow embedding of the C++ simulation source.

The embedding models C++ `double`/`float` arithmetic by real numbers:
`hypot` is `Real.sqrt` of the sum of squares, `atan2 y x` is the argument
of the complex number `x + i y` (the same principal-value convention as
the C library, including `atan2 0 0 = 0`), and `Vector2Normalize` follows
raymath (a zero vector normalizes to the zero vector).
-/

namespace BHVis

/-- Speed of light in m/s, from the source constants. -/
noncomputable def c : ℝ := 299792458

/-- Gravitational constant in m^3 kg^-1 s^-2, from the source constants. -/
noncomputable def G : ℝ := 6.67430e-11

/-- Visualization scale: meters to pixels, from the source constants. -/
noncomputable def VIS_SCALE : ℝ := 6e-9

/-- Simulation time multiplier, from the source constants. -/
noncomputable def TIME_MULTIPLIER : ℝ := 100

/-- A 2D vector, modelling raylib's `Vector2`. -/
@[ext]
structure Vec2 where
  x : ℝ
  y : ℝ

/-- C library `hypot`: the Euclidean norm of `(x, y)`. -/
noncomputable def hypot (x y : ℝ) : ℝ := Real.sqrt (x * x + y * y)

/-- C library `atan2 y x`: the principal argument of `x + i y`. -/
noncomputable def atan2 (y x : ℝ) : ℝ := Complex.arg ⟨x, y⟩

/-- raymath `Vector2Normalize`: divide by the length when it is positive,
return the zero vector otherwise. -/
noncomputable def Vector2Normalize (v : Vec2) : Vec2 :=
  let length := Real.sqrt (v.x * v.x + v.y * v.y)
  if 0 < length then ⟨v.x / length, v.y / length⟩ else ⟨0, 0⟩

/-- The `BlackHole` struct: position, mass, and stored Schwarzschild radius. -/
structure BlackHole where
  pos : Vec2
  mass : ℝ
  r_s : ℝ

/-- The `BlackHole` constructor: stores position and mass and computes
`r_s = (2 * G * mass) / (c * c)` once. -/
noncomputable def BlackHole.create (position : Vec2) (m : ℝ) : BlackHole :=
  { pos := position, mass := m, r_s := 2 * G * m / (c * c) }

/-- Polar integration state: radius, angle, and their time derivatives. -/
@[ext]
structure PolarState where
  r : ℝ
  phi : ℝ
  drdt : ℝ
  dphidt : ℝ

/-- The geodesic integration core of `LightRay::Update` (the block from
`double L = r * r * dphi_dt / c;` through `phi += dphi_dt * dt;`):
computes the conserved quantity `L`, the two accelerations, updates the
velocities in place, then updates the positions with the updated
velocities. -/
noncomputable def geodesicCore (dt r_s r phi dr_dt dphi_dt : ℝ) : PolarState :=
  let L := r * r * dphi_dt / c
  let r2 := r * r
  let r3 := r2 * r
  let r4 := r3 * r
  let c2 := c * c
  let d2r_dt2 := -(r_s * c2) / (2 * r2) + L * L * c2 / r3 - 3 * r_s * (L * L) * c2 / (2 * r4)
  let d2phi_dt2 := -2 / r * dr_dt * dphi_dt
  let dr_dt2 := dr_dt + d2r_dt2 * dt
  let dphi_dt2 := dphi_dt + d2phi_dt2 * dt
  { r := r + dr_dt2 * dt, phi := phi + dphi_dt2 * dt, drdt := dr_dt2, dphidt := dphi_dt2 }

/-- Conversion of an integrated polar state back to a Cartesian position,
as in `LightRay::Update`: `(r * cos(phi) * VIS_SCALE, r * sin(phi) * VIS_SCALE)`. -/
noncomputable def posOf (p : PolarState) : Vec2 :=
  ⟨p.r * Real.cos p.phi * VIS_SCALE, p.r * Real.sin p.phi * VIS_SCALE⟩

/-- The Cartesian velocity rebuilt from the integrated polar state, as in
`LightRay::Update`: `dr_dt * new_r_hat + r * dphi_dt * new_phi_hat`. -/
noncomputable def velOf (p : PolarState) : Vec2 :=
  ⟨p.drdt * Real.cos p.phi + p.r * p.dphidt * (-Real.sin p.phi),
   p.drdt * Real.sin p.phi + p.r * p.dphidt * Real.cos p.phi⟩

/-- The `LightRay` struct: Cartesian position and direction, polar members
`r`, `phi`, the (initialized but otherwise unused) members `dr`, `dphi`,
and the path history. -/
@[ext]
structure LightRay where
  pos : Vec2
  dir : Vec2
  r : ℝ
  phi : ℝ
  dr : ℝ
  dphi : ℝ
  path : List Vec2

/-- The `LightRay` constructor: stores position and direction, derives the
polar members from the position, zero-initializes `dr` and `dphi`, and
starts the path with the initial position. -/
noncomputable def LightRay.init (position direction : Vec2) : LightRay :=
  { pos := position, dir := direction,
    r := hypot position.x position.y / VIS_SCALE,
    phi := atan2 position.y position.x,
    dr := 0, dphi := 0,
    path := [position] }

/-- `LightRay::Update(dt, r_s)`: re-derives `r` and `phi` from the current
Cartesian position, returns early when `r <= 0` or `r < r_s`, and
otherwise decomposes the direction into polar velocities, runs the
geodesic core, converts back to Cartesian, renormalizes the direction,
and appends the new position to the path. -/
noncomputable def LightRay.Update (dt r_s : ℝ) (lr : LightRay) : LightRay :=
  let r := hypot lr.pos.x lr.pos.y / VIS_SCALE
  let phi := atan2 lr.pos.y lr.pos.x
  if r ≤ 0 then { lr with r := r, phi := phi }
  else if r < r_s then { lr with r := r, phi := phi }
  else
    let r_hat : Vec2 := ⟨Real.cos phi, Real.sin phi⟩
    let phi_hat : Vec2 := ⟨-Real.sin phi, Real.cos phi⟩
    let v_r := (lr.dir.x * r_hat.x + lr.dir.y * r_hat.y) * c
    let v_phi := (lr.dir.x * phi_hat.x + lr.dir.y * phi_hat.y) * c
    let dphi_dt := v_phi / r
    let dr_dt := v_r
    let next := geodesicCore dt r_s r phi dr_dt dphi_dt
    let newPos := posOf next
    let velocity_cart := velOf next
    { lr with
      pos := newPos, dir := Vector2Normalize velocity_cart,
      r := next.r, phi := next.phi,
      path := lr.path ++ [newPos] }

/-- The `Simulation` struct: one black hole, the light rays, and the
screen center. -/
structure Simulation where
  blackHole : BlackHole
  lightRays : List LightRay
  center : Vec2

/-- The `Simulation` constructor: black hole of mass `8.54e36` at the
origin, center at half the screen size, and a single light ray starting
at `(-center.x, 285.99)` moving in direction `(1, 0)`. -/
noncomputable def Simulation.init (width height : ℝ) : Simulation :=
  let center : Vec2 := ⟨width / 2, height / 2⟩
  { blackHole := BlackHole.create ⟨0, 0⟩ 8.54e36,
    lightRays := [LightRay.init ⟨-center.x, 285.99⟩ ⟨1, 0⟩],
    center := center }

/-- `Simulation::Update(dt)`: updates every light ray with the black
hole's Schwarzschild radius. -/
noncomputable def Simulation.Update (dt : ℝ) (s : Simulation) : Simulation :=
  { s with lightRays := s.lightRays.map fun lr => lr.Update dt s.blackHole.r_s }

/-- The radius `LightRay::Update` derives from the current Cartesian
position at the start of each step. -/
noncomputable def derivedRadius (lr : LightRay) : ℝ :=
  hypot lr.pos.x lr.pos.y / VIS_SCALE

/-- The angle `LightRay::Update` derives from the current Cartesian
position at the start of each step. -/
noncomputable def derivedAngle (lr : LightRay) : ℝ :=
  atan2 lr.pos.y lr.pos.x

/-- The radial velocity `v_r` that a live `LightRay::Update` feeds into
the integrator: the direction projected on the radial unit vector,
scaled by the speed of light. -/
noncomputable def vrIn (lr : LightRay) : ℝ :=
  (lr.dir.x * Real.cos (derivedAngle lr) + lr.dir.y * Real.sin (derivedAngle lr)) * c

/-- The tangential velocity `v_phi` that a live `LightRay::Update`
derives from the direction and the tangential unit vector. -/
noncomputable def vphiIn (lr : LightRay) : ℝ :=
  (lr.dir.x * (-Real.sin (derivedAngle lr)) + lr.dir.y * Real.cos (derivedAngle lr)) * c

/-- The angular velocity `dphi_dt = v_phi / r` fed into the integrator. -/
noncomputable def dphiIn (lr : LightRay) : ℝ :=
  vphiIn lr / derivedRadius lr

/-- The polar state produced by the geodesic core inside one live call of
`LightRay::Update`. -/
noncomputable def stepPolar (dt r_s : ℝ) (lr : LightRay) : PolarState :=
  geodesicCore dt r_s (derivedRadius lr) (derivedAngle lr) (vrIn lr) (dphiIn lr)

/-- A photon is live when its derived radius is positive and not below the
Schwarzschild radius: neither early return of `LightRay::Update` fires. -/
def Alive (r_s : ℝ) (lr : LightRay) : Prop :=
  0 < derivedRadius lr ∧ ¬ derivedRadius lr < r_s

/-- Folding `LightRay::Update` over a list of time steps. -/
noncomputable def raySteps (r_s : ℝ) (dts : List ℝ) (lr : LightRay) : LightRay :=
  dts.foldl (fun s d => s.Update d r_s) lr

/-- Folding `Simulation::Update` over a list of time steps. -/
noncomputable def simSteps (dts : List ℝ) (s : Simulation) : Simulation :=
  dts.foldl (fun w d => w.Update d) s

/-- The per-step integration exactly as the specification words it
(spec section 4.2, steps 3 to 7): compute the conserved quantity
`L = r^2 * (dphi/dt) / c`, compute the two accelerations, update the
velocities first, then update the positions using the already-updated
velocities (semi-implicit Euler ordering). -/
noncomputable def specGeodesicStep (r_s dt r phi drdt dphidt : ℝ) : PolarState :=
  let L := r ^ 2 * dphidt / c
  let d2r := -(r_s * c ^ 2) / (2 * r ^ 2) + L ^ 2 * c ^ 2 / r ^ 3 - 3 * r_s * L ^ 2 * c ^ 2 / (2 * r ^ 4)
  let d2phi := -2 / r * drdt * dphidt
  let drdt2 := drdt + d2r * dt
  let dphidt2 := dphidt + d2phi * dt
  { r := r + drdt2 * dt, phi := phi + dphidt2 * dt, drdt := drdt2, dphidt := dphidt2 }

/-- A concrete live photon used to exercise the theorems: it sits on the
positive x-axis at derived radius 2 (Cartesian `1.2e-8 = 2 * VIS_SCALE`)
heading radially outward. -/
noncomputable def sampleRay : LightRay :=
  { pos := ⟨1.2e-8, 0⟩, dir := ⟨1, 0⟩, r := 2, phi := 0, dr := 0, dphi := 0,
    path := [⟨1.2e-8, 0⟩] }

/-- A concrete absorbed photon: derived radius 1 (Cartesian `6e-9`),
inside a Schwarzschild radius of 2. -/
noncomputable def absorbedRay : LightRay :=
  { pos := ⟨6e-9, 0⟩, dir := ⟨1, 0⟩, r := 1, phi := 0, dr := 0, dphi := 0,
    path := [⟨6e-9, 0⟩] }

/-- A concrete photon sitting exactly on the black hole (the origin). -/
noncomputable def centerRay : LightRay :=
  { pos := ⟨0, 0⟩, dir := ⟨1, 0⟩, r := 0, phi := 0, dr := 0, dphi := 0,
    path := [⟨0, 0⟩] }

theorem update_frozen (dt r_s : ℝ) (lr : LightRay)
    (h : derivedRadius lr ≤ 0 ∨ derivedRadius lr < r_s) :
    lr.Update dt r_s =
      { lr with r := derivedRadius lr, phi := derivedAngle lr } := by
  rcases le_or_lt (derivedRadius lr) 0 with h0 | h0
  · simp only [LightRay.Update, derivedRadius, derivedAngle] at h0 ⊢
    rw [if_pos h0]
  · have hrs : derivedRadius lr < r_s := by
      rcases h with h | h
      · exact absurd h (not_le.mpr h0)
      · exact h
    simp only [LightRay.Update, derivedRadius, derivedAngle] at h0 hrs ⊢
    rw [if_neg (not_le.mpr h0), if_pos hrs]

theorem update_live (dt r_s : ℝ) (lr : LightRay) (h : Alive r_s lr) :
    lr.Update dt r_s =
      { lr with
        pos := posOf (stepPolar dt r_s lr),
        dir := Vector2Normalize (velOf (stepPolar dt r_s lr)),
        r := (stepPolar dt r_s lr).r, phi := (stepPolar dt r_s lr).phi,
        path := lr.path ++ [posOf (stepPolar dt r_s lr)] } := by
  obtain ⟨h0, hrs⟩ := h
  simp only [LightRay.Update, stepPolar, derivedRadius, derivedAngle,
    vrIn, vphiIn, dphiIn] at h0 hrs ⊢
  rw [if_neg (not_le.mpr h0), if_neg hrs]

theorem hypot_nonneg (x y : ℝ) : 0 ≤ hypot x y := Real.sqrt_nonneg _

theorem hypot_axis (x : ℝ) (hx : 0 ≤ x) : hypot x 0 = x := by
  show Real.sqrt (x * x + 0 * 0) = x
  rw [mul_zero, add_zero, Real.sqrt_mul_self hx]

theorem atan2_zero_of_nonneg (x : ℝ) (hx : 0 ≤ x) : atan2 0 x = 0 := by
  exact Complex.arg_eq_zero_iff.mpr ⟨hx, rfl⟩

theorem sin_atan2 (y x : ℝ) : Real.sin (atan2 y x) = y / hypot x y := by
  show Real.sin (Complex.arg ⟨x, y⟩) = y / hypot x y
  rw [Complex.sin_arg, Complex.abs_apply, Complex.normSq_mk]
  rfl

theorem cos_atan2 (y x : ℝ) (h : 0 < hypot x y) :
    Real.cos (atan2 y x) = x / hypot x y := by
  have hz : (⟨x, y⟩ : ℂ) ≠ 0 := by
    intro hzero
    have hx : x = 0 := congrArg Complex.re hzero
    have hy : y = 0 := congrArg Complex.im hzero
    rw [hx, hy] at h
    have : hypot (0 : ℝ) 0 = 0 := by
      show Real.sqrt (0 * 0 + 0 * 0) = 0
      simp
    rw [this] at h
    exact lt_irrefl 0 h
  show Real.cos (Complex.arg ⟨x, y⟩) = x / hypot x y
  rw [Complex.cos_arg hz, Complex.abs_apply, Complex.normSq_mk]
  rfl

theorem VIS_SCALE_pos : (0 : ℝ) < VIS_SCALE := by norm_num [VIS_SCALE]

theorem derivedRadius_axis (lr : LightRay) (hx : 0 ≤ lr.pos.x) (hy : lr.pos.y = 0) :
    derivedRadius lr = lr.pos.x / VIS_SCALE := by
  rw [derivedRadius, hy, hypot_axis lr.pos.x hx]

theorem derivedAngle_axis (lr : LightRay) (hx : 0 ≤ lr.pos.x) (hy : lr.pos.y = 0) :
    derivedAngle lr = 0 := by
  rw [derivedAngle, hy, atan2_zero_of_nonneg lr.pos.x hx]

theorem sample_radius : derivedRadius sampleRay = 2 := by
  rw [derivedRadius_axis sampleRay (by norm_num [sampleRay]) (by norm_num [sampleRay])]
  norm_num [sampleRay, VIS_SCALE]

theorem sample_angle : derivedAngle sampleRay = 0 :=
  derivedAngle_axis sampleRay (by norm_num [sampleRay]) (by norm_num [sampleRay])

theorem sample_alive : Alive 1 sampleRay := by
  constructor
  · rw [sample_radius]; norm_num
  · rw [sample_radius]; norm_num

theorem absorbed_radius : derivedRadius absorbedRay = 1 := by
  rw [derivedRadius_axis absorbedRay (by norm_num [absorbedRay]) (by norm_num [absorbedRay])]
  norm_num [absorbedRay, VIS_SCALE]

/-- C3: a `BlackHole` built by the constructor stores exactly
`r_s = 2 * G * mass / c^2`; for the Sagittarius A* mass `8.54e36` the value lies
at about `1.27e10` meters (between `1.26e10` and `1.28e10`); and no step of the
simulation ever touches the stored black hole, so the radius is never
recomputed. -/
theorem C3_schwarzschild_radius :
    (∀ (p : Vec2) (m : ℝ), (BlackHole.create p m).r_s = 2 * G * m / (c * c)) ∧
    (1.26e10 < (BlackHole.create ⟨0, 0⟩ 8.54e36).r_s ∧
      (BlackHole.create ⟨0, 0⟩ 8.54e36).r_s < 1.28e10) ∧
    (∀ (dt : ℝ) (s : Simulation), (s.Update dt).blackHole = s.blackHole) := by
  refine ⟨fun p m => rfl, ⟨?_, ?_⟩, fun dt s => rfl⟩
  · norm_num [BlackHole.create, G, c]
  · norm_num [BlackHole.create, G, c]

/-- C5: when the photon sits exactly on the black hole (the origin, where the
derived radius is zero), `LightRay::Update` is a no-op on the position, the
direction, the velocity members `dr` and `dphi`, and the path, for every `dt`
and every Schwarzschild radius; the guard handles the singularity internally. -/
theorem C5_singularity_noop (dt r_s : ℝ) (lr : LightRay) (h : lr.pos = ⟨0, 0⟩) :
    derivedRadius lr = 0 ∧
    (lr.Update dt r_s).pos = lr.pos ∧
    (lr.Update dt r_s).dir = lr.dir ∧
    (lr.Update dt r_s).dr = lr.dr ∧
    (lr.Update dt r_s).dphi = lr.dphi ∧
    (lr.Update dt r_s).path = lr.path := by
  have h0 : derivedRadius lr = 0 := by
    rw [derivedRadius, h]
    show Real.sqrt (0 * 0 + 0 * 0) / VIS_SCALE = 0
    simp
  rw [update_frozen dt r_s lr (Or.inl (le_of_eq h0))]
  exact ⟨h0, rfl, rfl, rfl, rfl, rfl⟩

/-- C5 witness: the no-op at a concrete photon placed on the origin. -/
theorem C5_singularity_noop_witness :
    derivedRadius centerRay = 0 ∧
    (centerRay.Update 7 3).pos = centerRay.pos ∧
    (centerRay.Update 7 3).dir = centerRay.dir ∧
    (centerRay.Update 7 3).dr = centerRay.dr ∧
    (centerRay.Update 7 3).dphi = centerRay.dphi ∧
    (centerRay.Update 7 3).path = centerRay.path :=
  C5_singularity_noop 7 3 centerRay rfl

theorem derivedRadius_frozen (dt r_s : ℝ) (lr : LightRay)
    (h : derivedRadius lr ≤ 0 ∨ derivedRadius lr < r_s) :
    derivedRadius (lr.Update dt r_s) = derivedRadius lr := by
  rw [update_frozen dt r_s lr h]
  rfl

/-- C2: once the derived radius is below the Schwarzschild radius, any
sequence of further `update` calls, with arbitrary time steps, leaves the
position, the direction and the path unchanged, and the derived radius of the
frozen photon stays below the Schwarzschild radius: absorption is
irreversible. -/
theorem C2_absorption_irreversible (r_s : ℝ) (lr : LightRay) (dts : List ℝ)
    (h : derivedRadius lr < r_s) :
    (raySteps r_s dts lr).pos = lr.pos ∧
    (raySteps r_s dts lr).dir = lr.dir ∧
    (raySteps r_s dts lr).path = lr.path ∧
    derivedRadius (raySteps r_s dts lr) < r_s := by
  induction dts generalizing lr with
  | nil => exact ⟨rfl, rfl, rfl, h⟩
  | cons dt rest ih =>
    have hstep := update_frozen dt r_s lr (Or.inr h)
    have hrad : derivedRadius (lr.Update dt r_s) < r_s := by
      rw [derivedRadius_frozen dt r_s lr (Or.inr h)]
      exact h
    have hsteps : raySteps r_s (dt :: rest) lr = raySteps r_s rest (lr.Update dt r_s) := rfl
    obtain ⟨hp, hd, hpath, hr⟩ := ih (lr.Update dt r_s) hrad
    refine ⟨?_, ?_, ?_, ?_⟩
    · rw [hsteps, hp, hstep]
    · rw [hsteps, hd, hstep]
    · rw [hsteps, hpath, hstep]
    · rw [hsteps]
      exact hr

/-- C2 witness: a concrete absorbed photon (derived radius 1, Schwarzschild
radius 2) is frozen across two further steps with time steps 1 and -1. -/
theorem C2_absorption_irreversible_witness :
    derivedRadius absorbedRay < 2 ∧
    (raySteps 2 [1, -1] absorbedRay).pos = absorbedRay.pos ∧
    (raySteps 2 [1, -1] absorbedRay).dir = absorbedRay.dir ∧
    (raySteps 2 [1, -1] absorbedRay).path = absorbedRay.path ∧
    derivedRadius (raySteps 2 [1, -1] absorbedRay) < 2 := by
  have h : derivedRadius absorbedRay < 2 := by rw [absorbed_radius]; norm_num
  exact ⟨h, C2_absorption_irreversible 2 absorbedRay [1, -1] h⟩

/-- C9: `LightRay::Update` never validates or clamps `dt`: for every time
step, zero and negative values included, a live photon runs the full geodesic
integration (its new polar members, position and direction come from the
integration state) and appends exactly one point to its path. -/
theorem C9_no_dt_validation (dt r_s : ℝ) (lr : LightRay) (h : Alive r_s lr) :
    (lr.Update dt r_s).path = lr.path ++ [(lr.Update dt r_s).pos] ∧
    (lr.Update dt r_s).pos = posOf (stepPolar dt r_s lr) ∧
    (lr.Update dt r_s).dir = Vector2Normalize (velOf (stepPolar dt r_s lr)) ∧
    (lr.Update dt r_s).r = (stepPolar dt r_s lr).r ∧
    (lr.Update dt r_s).phi = (stepPolar dt r_s lr).phi := by
  rw [update_live dt r_s lr h]
  exact ⟨rfl, rfl, rfl, rfl, rfl⟩

/-- C9 witness: the live sample photon is integrated, and its path grows by
one point, both at `dt = 0` and at the negative time step `dt = -1`. -/
theorem C9_no_dt_validation_witness :
    ((sampleRay.Update 0 1).path = sampleRay.path ++ [(sampleRay.Update 0 1).pos] ∧
      (sampleRay.Update 0 1).pos = posOf (stepPolar 0 1 sampleRay)) ∧
    ((sampleRay.Update (-1) 1).path = sampleRay.path ++ [(sampleRay.Update (-1) 1).pos] ∧
      (sampleRay.Update (-1) 1).pos = posOf (stepPolar (-1) 1 sampleRay)) := by
  have h0 := C9_no_dt_validation 0 1 sampleRay sample_alive
  have h1 := C9_no_dt_validation (-1) 1 sampleRay sample_alive
  exact ⟨⟨h0.1, h0.2.1⟩, ⟨h1.1, h1.2.1⟩⟩

theorem update_path_prefix (dt r_s : ℝ) (lr : LightRay) :
    lr.path.IsPrefix (lr.Update dt r_s).path := by
  by_cases h0 : derivedRadius lr ≤ 0
  · rw [update_frozen dt r_s lr (Or.inl h0)]
  · by_cases hrs : derivedRadius lr < r_s
    · rw [update_frozen dt r_s lr (Or.inr hrs)]
    · rw [update_live dt r_s lr ⟨lt_of_not_le h0, hrs⟩]
      exact ⟨[posOf (stepPolar dt r_s lr)], rfl⟩

theorem raySteps_path_length (r_s : ℝ) (dts : List ℝ) (lr : LightRay)
    (h : ∀ k, k < dts.length → Alive r_s (raySteps r_s (dts.take k) lr)) :
    (raySteps r_s dts lr).path.length = lr.path.length + dts.length := by
  induction dts generalizing lr with
  | nil => rfl
  | cons dt rest ih =>
    have halive : Alive r_s lr := h 0 (Nat.succ_pos _)
    have hlen : (lr.Update dt r_s).path.length = lr.path.length + 1 := by
      rw [update_live dt r_s lr halive]
      simp
    have hrec := ih (lr.Update dt r_s) (fun k hk => h (k + 1) (Nat.succ_lt_succ hk))
    show (raySteps r_s rest (lr.Update dt r_s)).path.length = lr.path.length + (rest.length + 1)
    rw [hrec, hlen]
    ring

/-- C4: a photon path is append-only: the constructor starts the path with
exactly the initial position, every `update` call extends the existing path
(removing or reordering nothing), a live call appends exactly one point, and
after `n` live steps from the initial length of 1 the path length is exactly
`n + 1`. -/
theorem C4_path_append_only (p d : Vec2) (r_s : ℝ) (dts : List ℝ)
    (h : ∀ k, k < dts.length → Alive r_s (raySteps r_s (dts.take k) (LightRay.init p d))) :
    (LightRay.init p d).path = [p] ∧
    (∀ (lr : LightRay) (dt : ℝ), lr.path.IsPrefix (lr.Update dt r_s).path) ∧
    (∀ (lr : LightRay) (dt : ℝ), Alive r_s lr →
      (lr.Update dt r_s).path = lr.path ++ [(lr.Update dt r_s).pos]) ∧
    (raySteps r_s dts (LightRay.init p d)).path.length = dts.length + 1 := by
  refine ⟨rfl, fun lr dt => update_path_prefix dt r_s lr, fun lr dt ha => ?_, ?_⟩
  · rw [update_live dt r_s lr ha]
  · rw [raySteps_path_length r_s dts (LightRay.init p d) h]
    show 1 + dts.length = dts.length + 1
    ring

/-- C4 witness: starting the sample photon from the constructor and taking one
live step (with `dt = 0`) grows the path from length 1 to length 2. -/
theorem C4_path_append_only_witness :
    (LightRay.init ⟨1.2e-8, 0⟩ ⟨1, 0⟩).path = [⟨1.2e-8, 0⟩] ∧
    (raySteps 1 [0] (LightRay.init ⟨1.2e-8, 0⟩ ⟨1, 0⟩)).path.length = 1 + 1 := by
  have halive : ∀ k, k < ([0] : List ℝ).length →
      Alive 1 (raySteps 1 (([0] : List ℝ).take k) (LightRay.init ⟨1.2e-8, 0⟩ ⟨1, 0⟩)) := by
    intro k hk
    have hk0 : k = 0 := by
      simp only [List.length_cons, List.length_nil] at hk
      omega
    subst hk0
    have hre : raySteps 1 (([0] : List ℝ).take 0) (LightRay.init ⟨1.2e-8, 0⟩ ⟨1, 0⟩) =
        LightRay.init ⟨1.2e-8, 0⟩ ⟨1, 0⟩ := rfl
    rw [hre]
    constructor
    · rw [derivedRadius_axis _ (by norm_num [LightRay.init]) (by norm_num [LightRay.init])]
      norm_num [LightRay.init, VIS_SCALE]
    · rw [derivedRadius_axis _ (by norm_num [LightRay.init]) (by norm_num [LightRay.init])]
      norm_num [LightRay.init, VIS_SCALE]
  have := C4_path_append_only ⟨1.2e-8, 0⟩ ⟨1, 0⟩ 1 [0] halive
  exact ⟨this.1, this.2.2.2⟩

/-- C7: `Simulation::Update(dt)` sends every photon, and only the photons,
through `LightRay::Update` with the single black hole Schwarzschild radius:
the collection keeps its length, the photon at every index afterwards is
exactly the update of the photon that was at that index before (so each
post-step state depends only on that photon own pre-step state, `dt`, and the
black hole), and stepping any permutation of the collection yields a
permutation of the stepped collection. -/
theorem C7_step_order_independence (dt : ℝ) (s : Simulation) :
    (s.Update dt).lightRays.length = s.lightRays.length ∧
    (∀ i : ℕ, (s.Update dt).lightRays[i]? =
      (s.lightRays[i]?).map fun lr => lr.Update dt s.blackHole.r_s) ∧
    (∀ rays2 : List LightRay, rays2.Perm s.lightRays →
      (Simulation.Update dt { s with lightRays := rays2 }).lightRays.Perm
        (s.Update dt).lightRays) := by
  refine ⟨?_, ?_, ?_⟩
  · show (s.lightRays.map fun lr => lr.Update dt s.blackHole.r_s).length = s.lightRays.length
    exact List.length_map _ _
  · intro i
    show (s.lightRays.map fun lr => lr.Update dt s.blackHole.r_s)[i]? = _
    exact List.getElem?_map _ _ _
  · intro rays2 hperm
    exact hperm.map fun lr => lr.Update dt s.blackHole.r_s

/-- C7 witness: swapping the two photons of a concrete world before the step
produces a permutation of the stepped world photons. -/
theorem C7_step_order_independence_witness :
    (Simulation.Update 1
        { blackHole := BlackHole.create ⟨0, 0⟩ 1, lightRays := [absorbedRay, sampleRay],
          center := ⟨0, 0⟩ }).lightRays.Perm
      (Simulation.Update 1
        { blackHole := BlackHole.create ⟨0, 0⟩ 1, lightRays := [sampleRay, absorbedRay],
          center := ⟨0, 0⟩ }).lightRays := by
  have hperm : ([absorbedRay, sampleRay] : List LightRay).Perm [sampleRay, absorbedRay] :=
    List.Perm.swap sampleRay absorbedRay []
  exact (C7_step_order_independence 1
    { blackHole := BlackHole.create ⟨0, 0⟩ 1, lightRays := [sampleRay, absorbedRay],
      center := ⟨0, 0⟩ }).2.2 [absorbedRay, sampleRay] hperm

theorem simSteps_lightRays (dts : List ℝ) (b : BlackHole) (rays : List LightRay)
    (cen : Vec2) :
    (simSteps dts { blackHole := b, lightRays := rays, center := cen }).lightRays =
      dts.foldl (fun rs d => rs.map fun lr => lr.Update d b.r_s) rays := by
  induction dts generalizing rays with
  | nil => rfl
  | cons dt rest ih => exact ih (rays.map fun lr => lr.Update dt b.r_s)

/-- C10: the photon evolution never reads the black hole stored position:
two worlds whose black holes agree on the Schwarzschild radius but sit at
different positions produce identical photon states after any sequence of
steps; and the constructor indeed places the black hole at the origin, which
is the point the update measures the radius from. -/
theorem C10_blackhole_position_irrelevant (b1 b2 : BlackHole) (rays : List LightRay)
    (c1 c2 : Vec2) (dts : List ℝ) (hr : b1.r_s = b2.r_s) :
    (simSteps dts { blackHole := b1, lightRays := rays, center := c1 }).lightRays =
      (simSteps dts { blackHole := b2, lightRays := rays, center := c2 }).lightRays ∧
    (∀ w h : ℝ, (Simulation.init w h).blackHole.pos = ⟨0, 0⟩) := by
  refine ⟨?_, fun w h => rfl⟩
  rw [simSteps_lightRays, simSteps_lightRays, hr]

/-- C10 witness: the black holes of equal mass at the origin and at `(3, 4)`
drive the sample photon to the same state over two steps. -/
theorem C10_blackhole_position_irrelevant_witness :
    (simSteps [1, 2]
        { blackHole := BlackHole.create ⟨0, 0⟩ 5, lightRays := [sampleRay],
          center := ⟨0, 0⟩ }).lightRays =
      (simSteps [1, 2]
        { blackHole := BlackHole.create ⟨3, 4⟩ 5, lightRays := [sampleRay],
          center := ⟨1, 1⟩ }).lightRays :=
  (C10_blackhole_position_irrelevant (BlackHole.create ⟨0, 0⟩ 5)
    (BlackHole.create ⟨3, 4⟩ 5) [sampleRay] ⟨0, 0⟩ ⟨1, 1⟩ [1, 2] rfl).1

theorem geodesicCore_eq_spec (dt r_s r phi a b : ℝ) :
    geodesicCore dt r_s r phi a b = specGeodesicStep r_s dt r phi a b := by
  simp only [geodesicCore, specGeodesicStep]
  ext <;> ring

/-- C1: on a live photon (positive derived radius, at or outside the
Schwarzschild radius) `LightRay::Update` performs, for every time step `dt`,
exactly the integration the specification prescribes, in the prescribed
order: `L = r^2 (dphi/dt) / c`, the two stated accelerations, velocities
updated first, and the position update consuming the already-updated
velocities; the resulting polar members, Cartesian position, direction and
appended path point all come from that semi-implicit Euler step. -/
theorem C1_integration_order (dt r_s : ℝ) (lr : LightRay)
    (h0 : 0 < derivedRadius lr) (hrs : r_s ≤ derivedRadius lr) :
    (lr.Update dt r_s).r =
      (specGeodesicStep r_s dt (derivedRadius lr) (derivedAngle lr) (vrIn lr) (dphiIn lr)).r ∧
    (lr.Update dt r_s).phi =
      (specGeodesicStep r_s dt (derivedRadius lr) (derivedAngle lr) (vrIn lr) (dphiIn lr)).phi ∧
    (lr.Update dt r_s).pos =
      posOf (specGeodesicStep r_s dt (derivedRadius lr) (derivedAngle lr) (vrIn lr) (dphiIn lr)) ∧
    (lr.Update dt r_s).dir =
      Vector2Normalize
        (velOf (specGeodesicStep r_s dt (derivedRadius lr) (derivedAngle lr) (vrIn lr) (dphiIn lr))) ∧
    (lr.Update dt r_s).path =
      lr.path ++
        [posOf (specGeodesicStep r_s dt (derivedRadius lr) (derivedAngle lr) (vrIn lr) (dphiIn lr))] := by
  have hspec : stepPolar dt r_s lr =
      specGeodesicStep r_s dt (derivedRadius lr) (derivedAngle lr) (vrIn lr) (dphiIn lr) :=
    geodesicCore_eq_spec dt r_s (derivedRadius lr) (derivedAngle lr) (vrIn lr) (dphiIn lr)
  rw [update_live dt r_s lr ⟨h0, not_lt.mpr hrs⟩, hspec]
  exact ⟨rfl, rfl, rfl, rfl, rfl⟩

/-- C1 witness: the live sample photon at derived radius 2 with Schwarzschild
radius 1 and `dt = 1e-9` takes exactly the specified integration step. -/
theorem C1_integration_order_witness :
    (sampleRay.Update 1e-9 1).r =
      (specGeodesicStep 1 1e-9 (derivedRadius sampleRay) (derivedAngle sampleRay)
        (vrIn sampleRay) (dphiIn sampleRay)).r ∧
    (sampleRay.Update 1e-9 1).pos =
      posOf (specGeodesicStep 1 1e-9 (derivedRadius sampleRay) (derivedAngle sampleRay)
        (vrIn sampleRay) (dphiIn sampleRay)) := by
  have h := C1_integration_order 1e-9 1 sampleRay
    (by rw [sample_radius]; norm_num) (by rw [sample_radius]; norm_num)
  exact ⟨h.1, h.2.2.1⟩

theorem normalize_pos (v : Vec2) (h : 0 < hypot v.x v.y) :
    Vector2Normalize v = ⟨v.x / hypot v.x v.y, v.y / hypot v.x v.y⟩ := by
  have h2 : 0 < Real.sqrt (v.x * v.x + v.y * v.y) := h
  simp only [Vector2Normalize]
  rw [if_pos h2]
  rfl

/-- C8: the polar velocities a live update feeds into the integrator come
from the stored unit direction vector scaled by `c`, so whenever the stored
direction is a unit vector the speed entering the step is exactly `c`
(both as `v_r^2 + v_phi^2` and as `v_r^2 + (r dphi/dt)^2`), whatever the
integration history; and the magnitude the integration produces is discarded
at the end of the step, when the Cartesian velocity is renormalized into the
unit direction vector. -/
theorem C8_entry_speed_c (lr : LightRay)
    (h : lr.dir.x * lr.dir.x + lr.dir.y * lr.dir.y = 1) :
    vrIn lr ^ 2 + vphiIn lr ^ 2 = c ^ 2 ∧
    (derivedRadius lr ≠ 0 →
      vrIn lr ^ 2 + (derivedRadius lr * dphiIn lr) ^ 2 = c ^ 2) ∧
    (∀ v : Vec2, v.x * v.x + v.y * v.y ≠ 0 →
      (Vector2Normalize v).x * (Vector2Normalize v).x +
        (Vector2Normalize v).y * (Vector2Normalize v).y = 1) ∧
    (∀ dt r_s : ℝ, Alive r_s lr →
      (lr.Update dt r_s).dir = Vector2Normalize (velOf (stepPolar dt r_s lr))) := by
  have hsc := Real.sin_sq_add_cos_sq (derivedAngle lr)
  have hspeed : vrIn lr ^ 2 + vphiIn lr ^ 2 = c ^ 2 := by
    simp only [vrIn, vphiIn]
    linear_combination
      (c ^ 2 * (Real.sin (derivedAngle lr) ^ 2 + Real.cos (derivedAngle lr) ^ 2)) * h +
        c ^ 2 * hsc
  refine ⟨hspeed, fun hr => ?_, fun v hv => ?_, fun dt r_s ha => ?_⟩
  · have hmul : derivedRadius lr * dphiIn lr = vphiIn lr := by
      rw [dphiIn]
      field_simp
    rw [hmul]
    exact hspeed
  · have hS0 : 0 ≤ v.x * v.x + v.y * v.y :=
      add_nonneg (mul_self_nonneg _) (mul_self_nonneg _)
    have hSpos : 0 < v.x * v.x + v.y * v.y := lt_of_le_of_ne hS0 (Ne.symm hv)
    have hL : 0 < hypot v.x v.y := Real.sqrt_pos.mpr hSpos
    rw [normalize_pos v hL]
    show v.x / hypot v.x v.y * (v.x / hypot v.x v.y) +
      v.y / hypot v.x v.y * (v.y / hypot v.x v.y) = 1
    rw [div_mul_div_comm, div_mul_div_comm, div_add_div_same]
    have hself : hypot v.x v.y * hypot v.x v.y = v.x * v.x + v.y * v.y :=
      Real.mul_self_sqrt hS0
    rw [hself]
    exact div_self hv
  · rw [update_live dt r_s lr ha]

/-- C8 witness: the sample photon direction is a unit vector, so its entry
speed is exactly `c`; normalizing the concrete vector `(3, 4)` yields a unit
vector; and the live sample step renormalizes its direction. -/
theorem C8_entry_speed_c_witness :
    vrIn sampleRay ^ 2 + vphiIn sampleRay ^ 2 = c ^ 2 ∧
    vrIn sampleRay ^ 2 + (derivedRadius sampleRay * dphiIn sampleRay) ^ 2 = c ^ 2 ∧
    (Vector2Normalize ⟨3, 4⟩).x * (Vector2Normalize ⟨3, 4⟩).x +
      (Vector2Normalize ⟨3, 4⟩).y * (Vector2Normalize ⟨3, 4⟩).y = 1 ∧
    (sampleRay.Update 1e-9 1).dir = Vector2Normalize (velOf (stepPolar 1e-9 1 sampleRay)) := by
  have h := C8_entry_speed_c sampleRay (by norm_num [sampleRay])
  refine ⟨h.1, h.2.1 ?_, h.2.2.1 ⟨3, 4⟩ (by norm_num), h.2.2.2 1e-9 1 sample_alive⟩
  rw [sample_radius]
  norm_num

theorem sample_vrIn : vrIn sampleRay = c := by
  simp only [vrIn]
  rw [sample_angle]
  simp [sampleRay]

theorem sample_dphiIn : dphiIn sampleRay = 0 := by
  simp only [dphiIn, vphiIn]
  rw [sample_angle]
  simp [sampleRay]

theorem sample_step :
    stepPolar 1e-9 1 sampleRay =
      ⟨2 + (c - c * c / 8 * 1e-9) * 1e-9, 0, c - c * c / 8 * 1e-9, 0⟩ := by
  rw [stepPolar, sample_radius, sample_angle, sample_vrIn, sample_dphiIn]
  simp only [geodesicCore]
  ext <;> norm_num <;> ring

theorem posOf_axis (R D : ℝ) : posOf ⟨R, 0, D, 0⟩ = ⟨R * VIS_SCALE, 0⟩ := by
  simp [posOf]

theorem velOf_axis (R D : ℝ) : velOf ⟨R, 0, D, 0⟩ = ⟨D, 0⟩ := by
  simp [velOf]

theorem normalize_axis (x : ℝ) (hx : 0 < x) : Vector2Normalize ⟨x, 0⟩ = ⟨1, 0⟩ := by
  have hs : hypot x 0 = x := hypot_axis x hx.le
  rw [normalize_pos ⟨x, 0⟩ (by rw [hs]; exact hx)]
  show (⟨x / hypot x 0, 0 / hypot x 0⟩ : Vec2) = ⟨1, 0⟩
  rw [hs, div_self (ne_of_gt hx), zero_div]

theorem sample_drdt2_pos : 0 < c - c * c / 8 * 1e-9 := by norm_num [c]

theorem sample_r2_pos : 0 < 2 + (c - c * c / 8 * 1e-9) * 1e-9 := by norm_num [c]

theorem sample_update :
    sampleRay.Update 1e-9 1 =
      { pos := ⟨(2 + (c - c * c / 8 * 1e-9) * 1e-9) * VIS_SCALE, 0⟩, dir := ⟨1, 0⟩,
        r := 2 + (c - c * c / 8 * 1e-9) * 1e-9, phi := 0, dr := 0, dphi := 0,
        path := [⟨1.2e-8, 0⟩, ⟨(2 + (c - c * c / 8 * 1e-9) * 1e-9) * VIS_SCALE, 0⟩] } := by
  rw [update_live 1e-9 1 sampleRay sample_alive, sample_step, posOf_axis, velOf_axis,
    normalize_axis _ sample_drdt2_pos]
  rfl

theorem sample_vrIn_next : vrIn (sampleRay.Update 1e-9 1) = c := by
  rw [sample_update]
  have hx : (0 : ℝ) ≤ (2 + (c - c * c / 8 * 1e-9) * 1e-9) * VIS_SCALE :=
    le_of_lt (mul_pos sample_r2_pos VIS_SCALE_pos)
  simp only [vrIn]
  rw [derivedAngle_axis _ hx rfl]
  simp

/-- C6 counterexample: for the live sample photon with `r_s = 1` and
`dt = 1e-9`, both this step and the next are live, yet the radial velocity
carried into the next step is `c`, while the radial velocity produced by the
integration of this step is `c - c^2 * 1e-9 / 8`: the velocities do not
persist as produced; they are renormalized to speed `c`. -/
theorem C6_counterexample :
    Alive 1 sampleRay ∧
    Alive 1 (sampleRay.Update 1e-9 1) ∧
    vrIn (sampleRay.Update 1e-9 1) ≠ (stepPolar 1e-9 1 sampleRay).drdt := by
  have hx : (0 : ℝ) ≤ (2 + (c - c * c / 8 * 1e-9) * 1e-9) * VIS_SCALE :=
    le_of_lt (mul_pos sample_r2_pos VIS_SCALE_pos)
  refine ⟨sample_alive, ⟨?_, ?_⟩, ?_⟩
  · rw [sample_update, derivedRadius_axis _ hx rfl]
    show 0 < (2 + (c - c * c / 8 * 1e-9) * 1e-9) * VIS_SCALE / VIS_SCALE
    rw [mul_div_cancel_right₀ _ (ne_of_gt VIS_SCALE_pos)]
    exact sample_r2_pos
  · rw [sample_update, derivedRadius_axis _ hx rfl]
    show ¬ (2 + (c - c * c / 8 * 1e-9) * 1e-9) * VIS_SCALE / VIS_SCALE < 1
    rw [mul_div_cancel_right₀ _ (ne_of_gt VIS_SCALE_pos)]
    norm_num [c]
  · rw [sample_vrIn_next, sample_step]
    show c ≠ c - c * c / 8 * 1e-9
    norm_num [c]

theorem rederive_after_writeback (P : PolarState) (lr2 : LightRay)
    (hr : 0 < P.r)
    (hv : 0 < hypot (velOf P).x (velOf P).y)
    (hpos : lr2.pos = posOf P) (hdir : lr2.dir = Vector2Normalize (velOf P)) :
    derivedRadius lr2 = P.r ∧
    Real.cos (derivedAngle lr2) = Real.cos P.phi ∧
    Real.sin (derivedAngle lr2) = Real.sin P.phi ∧
    vrIn lr2 = c / hypot (velOf P).x (velOf P).y * P.drdt ∧
    dphiIn lr2 = c / hypot (velOf P).x (velOf P).y * P.dphidt := by
  have hsc := Real.sin_sq_add_cos_sq P.phi
  have hVpos := VIS_SCALE_pos
  have hRV : 0 < P.r * VIS_SCALE := mul_pos hr hVpos
  have hpx : lr2.pos.x = P.r * Real.cos P.phi * VIS_SCALE := by rw [hpos]; rfl
  have hpy : lr2.pos.y = P.r * Real.sin P.phi * VIS_SCALE := by rw [hpos]; rfl
  have hsum : lr2.pos.x * lr2.pos.x + lr2.pos.y * lr2.pos.y =
      P.r * VIS_SCALE * (P.r * VIS_SCALE) := by
    rw [hpx, hpy]
    linear_combination (P.r * VIS_SCALE * (P.r * VIS_SCALE)) * hsc
  have hhyp : hypot lr2.pos.x lr2.pos.y = P.r * VIS_SCALE := by
    rw [hypot, hsum, Real.sqrt_mul_self hRV.le]
  have hrad : derivedRadius lr2 = P.r := by
    rw [derivedRadius, hhyp, mul_div_cancel_right₀ _ (ne_of_gt hVpos)]
  have hhpos : 0 < hypot lr2.pos.x lr2.pos.y := by rw [hhyp]; exact hRV
  have hcos : Real.cos (derivedAngle lr2) = Real.cos P.phi := by
    rw [derivedAngle, cos_atan2 _ _ hhpos, hhyp, hpx]
    field_simp
    ring
  have hsin : Real.sin (derivedAngle lr2) = Real.sin P.phi := by
    rw [derivedAngle, sin_atan2, hhyp, hpy]
    field_simp
    ring
  have hdx : lr2.dir.x = (velOf P).x / hypot (velOf P).x (velOf P).y := by
    rw [hdir, normalize_pos _ hv]
  have hdy : lr2.dir.y = (velOf P).y / hypot (velOf P).x (velOf P).y := by
    rw [hdir, normalize_pos _ hv]
  have hvx : (velOf P).x = P.drdt * Real.cos P.phi + P.r * P.dphidt * (-Real.sin P.phi) := rfl
  have hvy : (velOf P).y = P.drdt * Real.sin P.phi + P.r * P.dphidt * Real.cos P.phi := rfl
  have hkeyr : (velOf P).x * Real.cos P.phi + (velOf P).y * Real.sin P.phi = P.drdt := by
    rw [hvx, hvy]
    linear_combination P.drdt * hsc
  have hkeyphi : (velOf P).x * (-Real.sin P.phi) + (velOf P).y * Real.cos P.phi =
      P.r * P.dphidt := by
    rw [hvx, hvy]
    linear_combination (P.r * P.dphidt) * hsc
  have hvr : vrIn lr2 = c / hypot (velOf P).x (velOf P).y * P.drdt := by
    calc vrIn lr2 =
        ((velOf P).x * Real.cos P.phi + (velOf P).y * Real.sin P.phi) /
          hypot (velOf P).x (velOf P).y * c := by
          rw [vrIn, hcos, hsin, hdx, hdy]
          ring
      _ = P.drdt / hypot (velOf P).x (velOf P).y * c := by rw [hkeyr]
      _ = c / hypot (velOf P).x (velOf P).y * P.drdt := by ring
  have hvphi : vphiIn lr2 = c / hypot (velOf P).x (velOf P).y * (P.r * P.dphidt) := by
    calc vphiIn lr2 =
        ((velOf P).x * (-Real.sin P.phi) + (velOf P).y * Real.cos P.phi) /
          hypot (velOf P).x (velOf P).y * c := by
          rw [vphiIn, hcos, hsin, hdx, hdy]
          ring
      _ = P.r * P.dphidt / hypot (velOf P).x (velOf P).y * c := by rw [hkeyphi]
      _ = c / hypot (velOf P).x (velOf P).y * (P.r * P.dphidt) := by ring
  refine ⟨hrad, hcos, hsin, hvr, ?_⟩
  rw [dphiIn, hvphi, hrad]
  field_simp
  ring

/-- C6 amended: at the start of every update the polar position state is
re-derived from the current Cartesian position (radius from the norm of the
position over `VIS_SCALE`, angle from `atan2`) rather than carried forward;
the velocity state persists across steps only up to renormalization: the
velocities carried into step `n+1` equal the velocities produced by the
integration in step `n` multiplied by `c` over the norm of the produced
Cartesian velocity (they agree exactly only when that norm is `c`). -/
theorem C6_amended_renormalized (dt r_s : ℝ) (lr : LightRay) (h : Alive r_s lr)
    (hr : 0 < (stepPolar dt r_s lr).r)
    (hv : 0 < hypot (velOf (stepPolar dt r_s lr)).x (velOf (stepPolar dt r_s lr)).y) :
    derivedRadius (lr.Update dt r_s) = (stepPolar dt r_s lr).r ∧
    Real.cos (derivedAngle (lr.Update dt r_s)) = Real.cos (stepPolar dt r_s lr).phi ∧
    Real.sin (derivedAngle (lr.Update dt r_s)) = Real.sin (stepPolar dt r_s lr).phi ∧
    vrIn (lr.Update dt r_s) =
      c / hypot (velOf (stepPolar dt r_s lr)).x (velOf (stepPolar dt r_s lr)).y *
        (stepPolar dt r_s lr).drdt ∧
    dphiIn (lr.Update dt r_s) =
      c / hypot (velOf (stepPolar dt r_s lr)).x (velOf (stepPolar dt r_s lr)).y *
        (stepPolar dt r_s lr).dphidt := by
  have hupd := update_live dt r_s lr h
  have hpos : (lr.Update dt r_s).pos = posOf (stepPolar dt r_s lr) := by rw [hupd]
  have hdir : (lr.Update dt r_s).dir = Vector2Normalize (velOf (stepPolar dt r_s lr)) := by
    rw [hupd]
  exact rederive_after_writeback (stepPolar dt r_s lr) (lr.Update dt r_s) hr hv hpos hdir

/-- C6 witness for the amended claim: at the concrete sample step the derived
radius of the updated photon equals the integrated radius and the carried-in
velocities are the produced ones rescaled by `c` over the produced speed. -/
theorem C6_amended_renormalized_witness :
    derivedRadius (sampleRay.Update 1e-9 1) = (stepPolar 1e-9 1 sampleRay).r ∧
    vrIn (sampleRay.Update 1e-9 1) =
      c / hypot (velOf (stepPolar 1e-9 1 sampleRay)).x (velOf (stepPolar 1e-9 1 sampleRay)).y *
        (stepPolar 1e-9 1 sampleRay).drdt := by
  have hr : 0 < (stepPolar 1e-9 1 sampleRay).r := by
    rw [sample_step]
    exact sample_r2_pos
  have hv : 0 < hypot (velOf (stepPolar 1e-9 1 sampleRay)).x
      (velOf (stepPolar 1e-9 1 sampleRay)).y := by
    rw [sample_step, velOf_axis, hypot_axis _ sample_drdt2_pos.le]
    exact sample_drdt2_pos
  have h := C6_amended_renormalized 1e-9 1 sampleRay sample_alive hr hv
  exact ⟨h.1, h.2.2.2.1⟩

end BHVis
